import Mathlib

/-!
Verification of the string-obfuscator subsystem of Bashfuscator
(`bashfuscator/lib/string_obfuscators.py`).

Commands, keys, directory names and payload data are modelled as `List Char`
(Python `str`); bytes are `Nat` (all inputs of interest are ASCII, where the
UTF-8 byte of a character is its code point).  External collaborators that are
not part of the sources (the randomness provider, the quote-escaping helper,
the hash function, and the target interpreter) are modelled as explicit
parameters or, where the specification fixes their contract, as definitions
whose doc comment starts with `Modelled from the spec:`.
-/

/-- Modelled from the spec: the quote-escaping helper `escapeQuotes`
(`bashfuscator.common.helpers`, outside the given sources) "must neutralize
embedded quote characters per the target interpreter's quoting rules"; the
runtime denotation of the escaped literal is the original string, so on
denoted values it is the identity. -/
def escapeQuotes (s : List Char) : List Char := s

/-- Python slicing loop `[userCmd[i:i + sectionSize] for i in range(0, len(userCmd), sectionSize)]`
of `GlobObfuscator.generate` (line 77) and `FolderGlob.mutate` (line 140):
split the command into contiguous chunks of `sectionSize` characters (the
step is at least 1 whenever this is reached through `setSizes`). -/
def pyChunks (cmd : List Char) (s : Nat) : List (List Char) :=
  if h : cmd = [] ∨ s = 0 then [] else cmd.take s :: pyChunks (cmd.drop s) s
termination_by cmd.length
decreasing_by
  simp only [List.length_drop]
  have h1 : cmd ≠ [] := fun hc => h (Or.inl hc)
  have h2 : s ≠ 0 := fun hs => h (Or.inr hs)
  have := List.length_pos.mpr h1
  omega

/-- Width of the digit string produced by `format(i, "0" ++ str w ++ "b")`:
the minimal binary digits of `i` (`Nat.log 2 i + 1` of them, a single digit
`"0"` for `i = 0`), left-padded with `'0'` to at least `w`. -/
def pyBinWidth (i w : Nat) : Nat := max w (Nat.log 2 i + 1)

/-- Python `format(i, "0" ++ str w ++ "b")` (line 89): most-significant-first
binary digits of `i`, zero-padded on the left to width `w`; digit `k` counted
from the left is bit `width - 1 - k` of `i`. -/
def formatBin (i w : Nat) : List Char :=
  (List.range (pyBinWidth i w)).map
    (fun k => if i.testBit (pyBinWidth i w - 1 - k) then '1' else '0')

/-- The chunk-index filename pattern of `GlobObfuscator.generate` (line 89):
`format(i, ...).replace("0", "?").replace("1", "\n")`.  The formatted string
consists of the digits 0 and 1 only and `'?' ≠ '1'`, so the two successive
replaces act as this single character map. -/
def indexPattern (w i : Nat) : List Char :=
  (formatBin i w).map (fun c => if c = '0' then '?' else if c = '1' then '\n' else c)

/-- Bit-level view of `indexPattern` used by the ordering lemmas: character
`k` (from the left) of the staged filename is `'\n'` when bit `w - 1 - k` of
the chunk index is set and `'?'` otherwise. -/
def patBE (w i : Nat) : List Char :=
  (List.range w).map (fun k => if i.testBit (w - 1 - k) then '\n' else '?')

/-- Lines 79-81 of `GlobObfuscator.generate`:
`cmdLogLen = int(math.ceil(math.log(cmdLen, 2)))`, then raised to 1 when it is
not positive.  The real-valued `math.ceil (math.log cmdLen 2)` is modelled
exactly by `Nat.clog 2 cmdLen` (the ceiling of the real base-2 logarithm for
`cmdLen ≥ 1`; `cmdLen = 0` raises before this point and is handled by the
caller). -/
def globWidth (cmdLen : Nat) : Nat :=
  let cmdLogLen := Nat.clog 2 cmdLen
  if cmdLogLen ≤ 0 then 1 else cmdLogLen

/-- One payload-template line handed to the external Mangler.  Each
constructor corresponds to one `addPayloadLine` / `addLinesInRandomOrder`
call site of `string_obfuscators.py`, carrying the data interpolated into the
template text. -/
inductive Line where
  | mkdirP (dir : List Char)
  | printfChunk (dir : List Char) (pat : List Char) (data : List Char)
  | catGlob (dir : List Char) (width : Nat)
  | rmGlob (dir : List Char) (width : Nat)
  | rmdirWorking (dir : List Char)
  | rmdirStarting (dir : List Char)
deriving DecidableEq, Repr

/-- The per-chunk print lines of `GlobObfuscator.generate` (lines 83-90): for
each chunk index `i`, the filename pattern `indexPattern cmdLogLen i` and the
quote-escaped chunk data.  The random emission order chosen by
`addLinesInRandomOrder` is modelled as the index order; the claims below
depend only on which lines are emitted, not on their order. -/
def globPrintLines (w : Nat) (cmdChars : List (List Char)) : List (List Char × List Char) :=
  (List.range cmdChars.length).map (fun i => (indexPattern w i, escapeQuotes (cmdChars.getD i [])))

/-- `GlobObfuscator.generate` (lines 71-96): chunk the command, compute the
filename width, and emit the mkdir line, the per-chunk printf lines, and the
cat and rm lines over the all-wildcard pattern.  For the empty command
`math.log(0, 2)` raises `ValueError: math domain error` before any line is
emitted. -/
def globGenerate (sectionSize : Nat) (workingDir : List Char) (userCmd : List Char) :
    Except String (List Line) :=
  let cmdChars := pyChunks userCmd sectionSize
  let cmdLen := cmdChars.length
  if cmdLen = 0 then Except.error "math domain error"
  else
    let cmdLogLen := globWidth cmdLen
    Except.ok
      (Line.mkdirP workingDir ::
        ((globPrintLines cmdLogLen cmdChars).map (fun p => Line.printfChunk workingDir p.1 p.2) ++
          [Line.catGlob workingDir cmdLogLen, Line.rmGlob workingDir cmdLogLen]))

/-- `GlobObfuscator.setSizes` (lines 98-106): the section size derived from
the size preference; Python `int(x / d + 1)` on a nonnegative int `x` is
`x / d + 1` in natural division.  A preference outside 1..3 leaves
`sectionSize` unset in the source (a type error downstream); such values are
mapped to 0 here and excluded by hypothesis in every theorem that uses
them. -/
def setSizes (sizePref cmdLen : Nat) : Nat :=
  if sizePref = 1 then cmdLen / 10 + 1
  else if sizePref = 2 then cmdLen / 100 + 1
  else if sizePref = 3 then 1
  else 0

/-- `FileGlob.mutate` (lines 119-124): `setSizes`, one `generate` call whose
working directory is the starting directory, then the closing `rmdir`
line. -/
def fileGlobMutate (sizePref : Nat) (startingDir : List Char) (userCmd : List Char) :
    Except String (List Line) :=
  let sectionSize := setSizes sizePref userCmd.length
  (globGenerate sectionSize startingDir userCmd).map
    (fun p => p ++ [Line.rmdirWorking startingDir])

/-- Loop body of `FolderGlob.mutate` (lines 142-144): one `generate` call
into a fresh subdirectory per chunk, each followed by that directory's
`rmdir` line.  `subDirs k` models the `randUniqueStr()` drawn for the k-th
chunk. -/
def folderGlobChunks (sectionSize : Nat) (startingDir : List Char) (subDirs : Nat → List Char) :
    List (List Char) → Nat → Except String (List Line)
  | [], _ => Except.ok []
  | c :: rest, k => do
      let dir := startingDir ++ '/' :: escapeQuotes (subDirs k)
      let g ← globGenerate sectionSize dir c
      let r ← folderGlobChunks sectionSize startingDir subDirs rest (k + 1)
      return g ++ [Line.rmdirWorking dir] ++ r

/-- `FolderGlob.mutate` (lines 137-148): chunk the command, stage every chunk
in its own subdirectory, then emit the removal of the starting directory. -/
def folderGlobMutate (sizePref : Nat) (startingDir : List Char) (subDirs : Nat → List Char)
    (userCmd : List Char) : Except String (List Line) :=
  let sectionSize := setSizes sizePref userCmd.length
  let cmdChunks := pyChunks userCmd sectionSize
  (folderGlobChunks sectionSize startingDir subDirs cmdChunks 0).map
    (fun p => p ++ [Line.rmdirStarting startingDir])

/-- Python slice `userCmd[i::keyLen]` (line 197): the characters at the
positions `i, i + keyLen, i + 2·keyLen, …` of the command, in position order
(`keyLen ≥ 1` whenever this is reached from `XorNonNull.mutate`, whose
attempted key lengths are positive). -/
def pyStride (userCmd : List Char) (i keyLen : Nat) : List Char :=
  (List.range userCmd.length).filterMap
    (fun j => if i ≤ j ∧ (j - i) % keyLen = 0 then some (userCmd.getD j ' ') else none)

/-- The `for i in range(keyLen)` loop of `XorNonNull.genXorKey`
(lines 196-213), acting on the mutable key `bytearray` (kept as characters;
for the ASCII alphabets in play, UTF-8 bytes and code points coincide) while
walking the remaining index list.  `allowed` models
`randGen._randStrCharList` (taken duplicate-free, so that Python's
per-member `remove` over the set `nullchars` is list filtering) and `select`
models `randGen.randSelect`.  Position `i` is replaced by a selection from
the blacklist when the drawn character collides with a stride character, and
the whole generation fails (`None`) when the blacklist is empty. -/
def genXorKeyGo (allowed : List Char) (select : List Char → Char) (userCmd : List Char)
    (keyLen : Nat) : List Nat → List Char → Option (List Char)
  | [], key => some key
  | i :: rest, key =>
    let nullchars := pyStride userCmd i keyLen
    if key.getD i ' ' ∈ nullchars then
      let charBlackList := allowed.filter (fun c => decide (c ∉ nullchars))
      if 0 < charBlackList.length then
        genXorKeyGo allowed select userCmd keyLen rest (key.set i (select charBlackList))
      else none
    else genXorKeyGo allowed select userCmd keyLen rest key

/-- `XorNonNull.genXorKey` (lines 193-215); `draw` is the string returned by
`randGen.randGenStr(minStrLen=keyLen, maxStrLen=keyLen)`. -/
def genXorKey (allowed : List Char) (select : List Char → Char) (draw : List Char)
    (keyLen : Nat) (userCmd : List Char) : Option (List Char) :=
  genXorKeyGo allowed select userCmd keyLen (List.range keyLen) draw

/-- Lines 225-230 of `XorNonNull.mutate`: the initial key length derived from
the size preference; Python `int(x / d + 1)` is `x / d + 1` in natural
division, and preference 3 uses the command length itself.  A preference
outside 1..3 leaves `keyLen` unbound in the source (a runtime error); the
final branch here is the preference-3 branch and other values are excluded by
hypothesis where it matters. -/
def xorInitialKeyLen (sizePref cmdLen : Nat) : Nat :=
  if sizePref = 1 then cmdLen / 100 + 1
  else if sizePref = 2 then cmdLen / 10 + 1
  else cmdLen

/-- The `while not xorKeyBytes` retry loop of `XorNonNull.mutate`
(lines 232-235), instrumented with the list of key lengths it hands to
`genXorKey`.  The length is incremented *before* each attempt, the first one
included; `draws L` is the random string drawn for the attempt at length `L`
(each attempted length is used at most once), and `fuel` bounds the number of
attempts of this unbounded source loop. -/
def xorKeyLoop (allowed : List Char) (select : List Char → Char) (draws : Nat → List Char)
    (userCmd : List Char) : Nat → Nat → List Nat × Option (List Char)
  | _, 0 => ([], none)
  | keyLen, fuel + 1 =>
    match genXorKey allowed select (draws (keyLen + 1)) (keyLen + 1) userCmd with
    | some key => ([keyLen + 1], some key)
    | none =>
      let rest := xorKeyLoop allowed select draws userCmd (keyLen + 1) fuel
      ((keyLen + 1) :: rest.1, rest.2)

/-- Lines 237-239 of `XorNonNull.mutate`: the cipher bytes, obtained by
XOR-ing the command bytes with the repeating key
(`cmdBytes[i] ^= xorKeyBytes[i % keyLen]`; ASCII characters, so byte values
are code points). -/
def xorCipherBytes (userCmd key : List Char) (keyLen : Nat) : List Nat :=
  (List.range userCmd.length).map
    (fun i => (userCmd.getD i ' ').toNat ^^^ (key.getD (i % keyLen) ' ').toNat)

/-- Modelled from the spec: the runtime decode loop emitted by
`XorNonNull.mutate` (lines 249-261) — for each index of the cipher text,
extract one cipher character and the key character at index modulo the key
string's length, and invoke the external byte-XOR facility (perl) to print
their XOR. -/
def xorDecodeLoop (data : List Nat) (key : List Char) : List Nat :=
  (List.range data.length).map
    (fun i => data.getD i 0 ^^^ (key.getD (i % key.length) ' ').toNat)

/-- Python `bytes(ch, "utf-8").hex()` of `HexHash.mutate` (line 164) for an
ASCII character: the two lowercase hex digits of its byte value
(`Nat.digitChar` yields `'0'`-`'9'` and lowercase `'a'`-`'f'`). -/
def charHex (ch : Char) : List Char :=
  [Nat.digitChar (ch.toNat / 16), Nat.digitChar (ch.toNat % 16)]

/-- Python `randomhash.find(hexchar)` (line 173) and the membership test
`hexchar in randomhash` (line 167): the first index at which `pat` occurs as
a contiguous substring of `s`, if any. -/
def strFind : List Char → List Char → Option Nat
  | s, pat =>
    if s.take pat.length = pat then some 0
    else
      match s with
      | [] => none
      | _ :: t => (strFind t pat).map (· + 1)

/-- The `while not hexchar in randomhash` search of `HexHash.mutate`
(lines 165-173) for one character: draw seed strings `seeds k` in turn, hash
each with the external digest oracle `hash` (hashlib md5 hexdigest), and stop
at the first whose digest contains the target, returning that seed and the
first index of the target in its digest.  `fuel` bounds this unbounded
generate-and-test source loop. -/
def hexHashFindSeed (hash : List Char → List Char) (seeds : Nat → List Char)
    (target : List Char) : Nat → Nat → Option (List Char × Nat)
  | _, 0 => none
  | k, fuel + 1 =>
    match strFind (hash (seeds k)) target with
    | some idx => some (seeds k, idx)
    | none => hexHashFindSeed hash seeds target (k + 1) fuel

/-- Value of a lowercase hex digit, as the target interpreter's `printf`
reads it. -/
def hexDigitVal (c : Char) : Nat :=
  if c.toNat ≤ 57 then c.toNat - 48 else c.toNat - 87

/-- Value of a two-hex-digit string, as `printf "\xHH"` reads it. -/
def hexPairVal : List Char → Nat
  | [a, b] => hexDigitVal a * 16 + hexDigitVal b
  | _ => 0

/-- Modelled from the spec: the runtime evaluation of one emitted `HexHash`
payload line (line 174) — recompute the digest of the seed (`md5sum` prints
the hex digest followed by two spaces and a dash), extract with `cut -b` the
two bytes at positions `idx + 1` and `idx + 2` of that output, and read them
as one hex byte value. -/
def hexHashLineEval (hash : List Char → List Char) (seed : List Char) (idx : Nat) : Nat :=
  hexPairVal (((hash seed ++ [' ', ' ', '-']).drop idx).take 2)

/-- The chunk files staged by `FileGlob.mutate`: filename pattern and data of
every printf line it emits. -/
def fileGlobFiles (sizePref : Nat) (userCmd : List Char) : List (List Char × List Char) :=
  let cmdChars := pyChunks userCmd (setSizes sizePref userCmd.length)
  globPrintLines (globWidth cmdChars.length) cmdChars

/-- Modelled from the spec: the target interpreter's evaluation of the staged
read-back `cat dir/?..?` — "read back all chunk files in one wildcard
expression sized to the index width, concatenating them in the shell's
default sort order", the default sort order being lexicographic filename
order (spec §3, IndexPattern).  Every staged filename has exactly `width`
characters, each matched by the single-character wildcard, so the expansion
is all staged files sorted by name. -/
def globEval (files : List (List Char × List Char)) : List Char :=
  ((files.insertionSort (fun p q => p.1 ≤ q.1)).map Prod.snd).flatten

/-- Evaluation of the `FileGlob.mutate` payload under the modelled
interpreter: the error of the staging phase, or the concatenation of the
staged chunk files in sorted filename order. -/
def fileGlobEval (sizePref : Nat) (userCmd : List Char) : Except String (List Char) :=
  (fileGlobMutate sizePref [] userCmd).map (fun _ => globEval (fileGlobFiles sizePref userCmd))

/-- Boolean recogniser for the per-chunk file-write lines of a payload. -/
def Line.isPrintf : Line → Bool
  | Line.printfChunk _ _ _ => true
  | _ => false

/-! ### Helper lemmas: chunking -/

theorem pyChunks_nil (s : Nat) : pyChunks [] s = [] := by
  rw [pyChunks]
  simp

theorem pyChunks_cons (cmd : List Char) (s : Nat) (hc : cmd ≠ []) (hs : s ≠ 0) :
    pyChunks cmd s = cmd.take s :: pyChunks (cmd.drop s) s := by
  rw [pyChunks]
  simp [hc, hs]

theorem pyChunks_ne_nil (cmd : List Char) (s : Nat) (hc : cmd ≠ []) (hs : s ≠ 0) :
    pyChunks cmd s ≠ [] := by
  rw [pyChunks_cons cmd s hc hs]
  exact List.cons_ne_nil _ _

/-- The number of chunks is the ceiling of the command length divided by the
section size. -/
theorem pyChunks_length (cmd : List Char) (s : Nat) (hs : s ≠ 0) :
    (pyChunks cmd s).length = (cmd.length + s - 1) / s := by
  by_cases hc : cmd = []
  · subst hc
    simp only [pyChunks_nil, List.length_nil]
    have : s - 1 < s := by omega
    simp [Nat.div_eq_of_lt this]
  · rw [pyChunks_cons cmd s hc hs, List.length_cons,
      pyChunks_length (cmd.drop s) s hs]
    have hlen : 0 < cmd.length := List.length_pos.mpr hc
    simp only [List.length_drop]
    rcases Nat.le_total cmd.length s with hle | hle
    · have h1 : cmd.length - s = 0 := by omega
      have h2 : (cmd.length + s - 1) / s = 1 :=
        Nat.div_eq_of_lt_le (by omega) (by omega)
      rw [h1]
      have : (0 + s - 1) / s = 0 := Nat.div_eq_of_lt (by omega)
      rw [this, h2]
    · have heq : cmd.length + s - 1 = (cmd.length - s + s - 1) + s := by omega
      rw [heq, Nat.add_div_right _ (Nat.pos_of_ne_zero hs)]
termination_by cmd.length
decreasing_by
  simp only [List.length_drop]
  have := List.length_pos.mpr hc
  omega

/-- Reading every position of a list back out of it in order yields the
list. -/
theorem map_getD_range {α : Type} (d : α) :
    ∀ l : List α, (List.range l.length).map (fun i => l.getD i d) = l := by
  intro l
  induction l with
  | nil => simp
  | cons a t ih =>
    rw [List.length_cons, List.range_succ_eq_map, List.map_cons, List.map_map]
    simp only [List.getD_cons_zero, List.cons.injEq, true_and]
    calc (List.range t.length).map ((fun i => (a :: t).getD i d) ∘ Nat.succ)
        = (List.range t.length).map (fun i => t.getD i d) := by
          apply List.map_congr_left
          intro i _
          simp [List.getD_cons_succ]
      _ = t := ih

theorem setSizes_pos (sizePref cmdLen : Nat)
    (h : sizePref = 1 ∨ sizePref = 2 ∨ sizePref = 3) :
    setSizes sizePref cmdLen ≠ 0 := by
  rcases h with h | h | h <;> simp [setSizes, h]

/-! ### Helper lemmas: index width -/

theorem globWidth_pos (n : Nat) : 1 ≤ globWidth n := by
  unfold globWidth
  by_cases h : Nat.clog 2 n ≤ 0 <;> simp [h] <;> omega

theorem globWidth_eq_max (n : Nat) : globWidth n = max 1 (Nat.clog 2 n) := by
  unfold globWidth
  by_cases h : Nat.clog 2 n ≤ 0
  · have : Nat.clog 2 n = 0 := by omega
    simp [this]
  · simp [h]
    omega

/-- Every chunk index is below `2 ^ width`: the staged filenames have enough
digits to distinguish all chunks. -/
theorem lt_two_pow_globWidth (n : Nat) (hn : n ≠ 0) : n ≤ 2 ^ globWidth n := by
  calc n ≤ 2 ^ Nat.clog 2 n := Nat.le_pow_clog (by norm_num) n
    _ ≤ 2 ^ globWidth n := by
        apply Nat.pow_le_pow_right (by norm_num)
        rw [globWidth_eq_max]
        omega

/-! ### Claim C4 (code bug): FileGlob.mutate on the empty command -/

/-- Claim C4: the claim states that for the empty command the glob staging
operation produces zero chunks, still emits the directory creation and
removal lines, and does not fail.  The code instead fails: with zero chunks
`GlobObfuscator.generate` evaluates `math.log(0, 2)`, which raises
`ValueError: math domain error` before any payload line is emitted, for
every size preference. -/
theorem fileGlob_empty_cmd_math_domain_error (dir : List Char) :
    fileGlobMutate 1 dir [] = Except.error "math domain error" ∧
    fileGlobMutate 2 dir [] = Except.error "math domain error" ∧
    fileGlobMutate 3 dir [] = Except.error "math domain error" := by
  refine ⟨?_, ?_, ?_⟩ <;>
    simp [fileGlobMutate, globGenerate, setSizes, pyChunks_nil, Except.map]

/-! ### Claim C10: FolderGlob.mutate on the empty command -/

/-- Claim C10: for the empty command `FolderGlob.mutate` emits exactly one
payload line — the removal of the starting directory — although no emitted
line ever creates that directory: there are no directory-creation,
file-write, read, or per-chunk removal lines in the payload (the payload is
literally the singleton starting-directory `rmdir` line), for every size
preference. -/
theorem folderGlob_empty_cmd_single_rmdir (dir : List Char) (subDirs : Nat → List Char) :
    folderGlobMutate 1 dir subDirs [] = Except.ok [Line.rmdirStarting dir] ∧
    folderGlobMutate 2 dir subDirs [] = Except.ok [Line.rmdirStarting dir] ∧
    folderGlobMutate 3 dir subDirs [] = Except.ok [Line.rmdirStarting dir] := by
  refine ⟨?_, ?_, ?_⟩ <;>
    simp [folderGlobMutate, setSizes, pyChunks_nil, folderGlobChunks, Except.map]

/-! ### Claim C5 (corrected): the initial XOR key length -/

/-- The first key length the retry loop of `XorNonNull.mutate` hands to
`genXorKey` is one more than the initial key length: the loop increments
before every attempt, the first one included. -/
theorem xorKeyLoop_trace_head (allowed : List Char) (select : List Char → Char)
    (draws : Nat → List Char) (userCmd : List Char) (keyLen fuel : Nat) :
    (xorKeyLoop allowed select draws userCmd keyLen (fuel + 1)).1.head? = some (keyLen + 1) := by
  rw [xorKeyLoop]
  cases h : genXorKey allowed select (draws (keyLen + 1)) (keyLen + 1) userCmd <;> simp

/-- Claim C5, counterexample: for the command `"ls -la"` (length 6) at the
lowest size preference the initial key length computed by the code is
`int(6/100 + 1) = 1`, not `⌈6/100⌉ + 1 = 2` as the claim's ceiling formula
states, and the first key length at which a generation is actually attempted
is 2, not the initial length: the length is incremented before the first
attempt. -/
theorem xorInitialKeyLen_counterexample :
    (xorInitialKeyLen 1 (['l', 's', ' ', '-', 'l', 'a'] : List Char).length ≠
      ((['l', 's', ' ', '-', 'l', 'a'] : List Char).length + 99) / 100 + 1) ∧
    (xorKeyLoop ['a', 'b'] (fun l => l.getD 0 ' ') (fun n => List.replicate n 'x')
        ['l', 's', ' ', '-', 'l', 'a'] (xorInitialKeyLen 1 6) 1).1.head? ≠
      some (xorInitialKeyLen 1 6) := by
  constructor
  · decide
  · rw [xorKeyLoop_trace_head]
    decide

/-- Claim C5, amended: the initial key length of `XorNonNull.mutate` is
`⌊len/100⌋ + 1` for size preference 1, `⌊len/10⌋ + 1` for preference 2 and
exactly `len` for preference 3; the retry loop increments the key length
before every attempt, the first one included, so the first attempted length
is the initial length plus one — in particular, for the command `"ls -la"`
at the lowest preference the initial key length is 1 and the first attempted
length is 2. -/
theorem xorInitialKeyLen_and_first_attempt (allowed : List Char) (select : List Char → Char)
    (draws : Nat → List Char) (userCmd : List Char) (sizePref cmdLen : Nat) :
    (sizePref = 1 → xorInitialKeyLen sizePref cmdLen = cmdLen / 100 + 1) ∧
    (sizePref = 2 → xorInitialKeyLen sizePref cmdLen = cmdLen / 10 + 1) ∧
    (sizePref = 3 → xorInitialKeyLen sizePref cmdLen = cmdLen) ∧
    (∀ fuel, (xorKeyLoop allowed select draws userCmd
        (xorInitialKeyLen sizePref userCmd.length) (fuel + 1)).1.head? =
      some (xorInitialKeyLen sizePref userCmd.length + 1)) ∧
    xorInitialKeyLen 1 (['l', 's', ' ', '-', 'l', 'a'] : List Char).length = 1 ∧
    (∀ fuel, (xorKeyLoop allowed select draws ['l', 's', ' ', '-', 'l', 'a']
        (xorInitialKeyLen 1 6) (fuel + 1)).1.head? = some 2) := by
  refine ⟨fun h => by simp [xorInitialKeyLen, h], fun h => by simp [xorInitialKeyLen, h],
    fun h => by simp [xorInitialKeyLen, h], fun fuel => xorKeyLoop_trace_head _ _ _ _ _ _,
    by decide, fun fuel => ?_⟩
  have h1 : xorInitialKeyLen 1 6 = 1 := by decide
  rw [xorKeyLoop_trace_head, h1]

/-- Witness for claim C5's amended theorem at the scenario input. -/
theorem xorInitialKeyLen_and_first_attempt_witness :
    ((1 : Nat) = 1 ∧ xorInitialKeyLen 1 6 = 6 / 100 + 1) ∧
    (xorKeyLoop ['a', 'b'] (fun l => l.getD 0 ' ') (fun n => List.replicate n 'x')
        ['l', 's', ' ', '-', 'l', 'a'] (xorInitialKeyLen 1 6) 1).1.head? = some 2 :=
  ⟨⟨rfl, (xorInitialKeyLen_and_first_attempt ['a', 'b'] (fun l => l.getD 0 ' ')
      (fun n => List.replicate n 'x') ['l', 's', ' ', '-', 'l', 'a'] 1 6).1 rfl⟩,
    (xorInitialKeyLen_and_first_attempt ['a', 'b'] (fun l => l.getD 0 ' ')
      (fun n => List.replicate n 'x') ['l', 's', ' ', '-', 'l', 'a'] 1 6).2.2.2.2.2 0⟩

/-! ### Helper lemmas: the two width-1 filename patterns -/

theorem pyBinWidth_zero_one : pyBinWidth 0 1 = 1 := by
  simp [pyBinWidth, Nat.log_zero_right]

theorem pyBinWidth_one_one : pyBinWidth 1 1 = 1 := by
  simp [pyBinWidth, Nat.log_one_right]

theorem indexPattern_one_zero : indexPattern 1 0 = ['?'] := by
  simp [indexPattern, formatBin, pyBinWidth_zero_one, List.range_succ]

theorem indexPattern_one_one : indexPattern 1 1 = ['\n'] := by
  simp [indexPattern, formatBin, pyBinWidth_one_one, List.range_succ]

/-! ### Claim C6: chunk count and index width of the glob encoders -/

/-- Claim C6: for every nonempty command the glob encoders split it into
exactly `⌈len/sectionSize⌉` chunks and use an index width of exactly
`max 1 ⌈log2 chunkCount⌉` wildcard positions in the read (`cat`) and delete
(`rm`) lines; in particular for the command `"id"` at the maximum
obfuscation preference the section size is 1, there are 2 chunks, the index
width is 1, and the two staged filenames are distinct single characters. -/
theorem glob_chunk_count_and_width (sizePref : Nat) (dir userCmd : List Char)
    (hp : sizePref = 1 ∨ sizePref = 2 ∨ sizePref = 3) (hne : userCmd ≠ []) :
    ((pyChunks userCmd (setSizes sizePref userCmd.length)).length =
      (userCmd.length + setSizes sizePref userCmd.length - 1) /
        setSizes sizePref userCmd.length) ∧
    (globWidth (pyChunks userCmd (setSizes sizePref userCmd.length)).length =
      max 1 (Nat.clog 2 (pyChunks userCmd (setSizes sizePref userCmd.length)).length)) ∧
    (∃ payload, fileGlobMutate sizePref dir userCmd = Except.ok payload ∧
      payload.countP Line.isPrintf =
        (pyChunks userCmd (setSizes sizePref userCmd.length)).length ∧
      Line.catGlob dir
        (globWidth (pyChunks userCmd (setSizes sizePref userCmd.length)).length) ∈ payload ∧
      Line.rmGlob dir
        (globWidth (pyChunks userCmd (setSizes sizePref userCmd.length)).length) ∈ payload) ∧
    (setSizes 3 (['i', 'd'] : List Char).length = 1 ∧
      pyChunks ['i', 'd'] (setSizes 3 2) = [['i'], ['d']] ∧
      globWidth 2 = 1 ∧
      fileGlobFiles 3 ['i', 'd'] = [(['?'], ['i']), (['\n'], ['d'])] ∧
      (['?'] : List Char) ≠ ['\n']) := by
  have hs := setSizes_pos sizePref userCmd.length hp
  have hchunks := pyChunks_ne_nil userCmd (setSizes sizePref userCmd.length) hne hs
  refine ⟨pyChunks_length userCmd _ hs, globWidth_eq_max _, ?_, ?_⟩
  · refine ⟨Line.mkdirP dir ::
      ((globPrintLines (globWidth (pyChunks userCmd (setSizes sizePref userCmd.length)).length)
          (pyChunks userCmd (setSizes sizePref userCmd.length))).map
        (fun p => Line.printfChunk dir p.1 p.2) ++
        [Line.catGlob dir
            (globWidth (pyChunks userCmd (setSizes sizePref userCmd.length)).length),
          Line.rmGlob dir
            (globWidth (pyChunks userCmd (setSizes sizePref userCmd.length)).length)]) ++
      [Line.rmdirWorking dir], ?_, ?_, ?_, ?_⟩
    · simp only [fileGlobMutate, globGenerate]
      rw [if_neg (by simpa using hchunks)]
      rfl
    · simp only [List.countP_append, List.countP_cons, List.countP_map, Line.isPrintf]
      have h1 : (Line.isPrintf ∘ fun p : List Char × List Char =>
          Line.printfChunk dir p.1 p.2) = fun _ => true := by
        funext p
        rfl
      rw [h1]
      simp [globPrintLines, Line.isPrintf]
    · simp
    · simp
  · refine ⟨by decide, by simp [setSizes, pyChunks], by simp [globWidth, Nat.clog], ?_, by decide⟩
    have hsz : setSizes 3 2 = 1 := by decide
    have h2 : pyChunks ['i', 'd'] 1 = [['i'], ['d']] := by simp [pyChunks]
    have hw : globWidth 2 = 1 := by simp [globWidth, Nat.clog]
    simp [fileGlobFiles, globPrintLines, escapeQuotes, List.range_succ, hsz, h2, hw,
      indexPattern_one_zero, indexPattern_one_one]

/-- Witness for claim C6 at the `"id"` scenario. -/
theorem glob_chunk_count_and_width_witness :
    ((3 : Nat) = 1 ∨ (3 : Nat) = 2 ∨ (3 : Nat) = 3) ∧ (['i', 'd'] : List Char) ≠ [] ∧
    (pyChunks ['i', 'd'] (setSizes 3 2)).length = (2 + setSizes 3 2 - 1) / setSizes 3 2 :=
  ⟨by decide, by decide,
    (glob_chunk_count_and_width 3 ['t'] ['i', 'd'] (by decide) (by decide)).1⟩

/-! ### Helper lemmas: filename patterns reverse the index order -/

/-- For indices below `2 ^ w` the staged filename pattern is the bit-level
pattern: the minimal binary digits fit into the padded width. -/
theorem indexPattern_eq_patBE (w i : Nat) (hw : 1 ≤ w) (hi : i < 2 ^ w) :
    indexPattern w i = patBE w i := by
  have hlogw : Nat.log 2 i + 1 ≤ w := by
    rcases Nat.eq_zero_or_pos i with h0 | hpos
    · subst h0
      simp [Nat.log_zero_right]
      omega
    · have := Nat.log_lt_of_lt_pow (Nat.pos_iff_ne_zero.mp hpos) hi
      omega
  have hwidth : pyBinWidth i w = w := by
    unfold pyBinWidth
    omega
  unfold indexPattern formatBin patBE
  rw [hwidth, List.map_map]
  apply List.map_congr_left
  intro k _
  by_cases hb : i.testBit (w - 1 - k) <;> simp [hb]

theorem patBE_succ (w i : Nat) :
    patBE (w + 1) i = (if i.testBit w then '\n' else '?') :: patBE w i := by
  unfold patBE
  rw [List.range_succ_eq_map, List.map_cons, List.map_map]
  congr 1
  apply List.map_congr_left
  intro k _
  have harith : w - (k + 1) = w - 1 - k := by omega
  simp [Function.comp, harith]

/-- The filename pattern only reads the low `w` bits of the index. -/
theorem patBE_mod (w i : Nat) : patBE w i = patBE w (i % 2 ^ w) := by
  unfold patBE
  apply List.map_congr_left
  intro k hk
  rw [List.mem_range] at hk
  rw [Nat.testBit_mod_two_pow]
  have hlt : w - 1 - k < w := by omega
  simp [hlt]

theorem testBit_high (w i : Nat) (hi : i < 2 ^ (w + 1)) :
    i.testBit w = decide (2 ^ w ≤ i) := by
  rw [Nat.testBit_to_div_mod]
  rcases Nat.lt_or_ge i (2 ^ w) with h | h
  · rw [Nat.div_eq_of_lt h]
    simp
    omega
  · have h1 : i / 2 ^ w = 1 := by
      apply Nat.div_eq_of_lt_le (by omega)
      rw [pow_succ] at hi
      omega
    rw [h1]
    simp [h]

/-- Because `'\n' < '?'` while the set bit is the numerically larger digit,
the filename patterns of two indices below `2 ^ w` compare in the order
opposite to the indices. -/
theorem patBE_rev_lt (w : Nat) : ∀ i j : Nat, i < j → j < 2 ^ w →
    List.Lex (· < ·) (patBE w j) (patBE w i) := by
  induction w with
  | zero =>
    intro i j hij hj
    rw [pow_zero] at hj
    omega
  | succ w ih =>
    intro i j hij hj
    have hi : i < 2 ^ (w + 1) := by omega
    have hbi := testBit_high w i hi
    have hbj := testBit_high w j hj
    rw [patBE_succ w i, patBE_succ w j]
    rcases Nat.lt_or_ge i (2 ^ w) with hilt | hige
    · rcases Nat.lt_or_ge j (2 ^ w) with hjlt | hjge
      · have h1 : i.testBit w = false := by
          rw [hbi]
          simp
          omega
        have h2 : j.testBit w = false := by
          rw [hbj]
          simp
          omega
        rw [h1, h2]
        exact List.Lex.cons (ih i j hij hjlt)
      · have h1 : i.testBit w = false := by
          rw [hbi]
          simp
          omega
        have h2 : j.testBit w = true := by
          rw [hbj]
          simpa using hjge
        rw [h1, h2]
        exact List.Lex.rel (by decide)
    · rcases Nat.lt_or_ge j (2 ^ w) with hjlt | hjge
      · omega
      · have h1 : i.testBit w = true := by
          rw [hbi]
          simpa using hige
        have h2 : j.testBit w = true := by
          rw [hbj]
          simpa using hjge
        rw [h1, h2]
        have hi2 : i - 2 ^ w < 2 ^ w := by
          rw [pow_succ] at hi
          omega
        have hj2 : j - 2 ^ w < 2 ^ w := by
          rw [pow_succ] at hj
          omega
        have htail : List.Lex (· < ·) (patBE w j) (patBE w i) := by
          rw [patBE_mod w i, patBE_mod w j]
          have hi' : i % 2 ^ w = i - 2 ^ w := by
            rw [Nat.mod_eq_sub_mod hige, Nat.mod_eq_of_lt hi2]
          have hj' : j % 2 ^ w = j - 2 ^ w := by
            rw [Nat.mod_eq_sub_mod hjge, Nat.mod_eq_of_lt hj2]
          rw [hi', hj']
          exact ih _ _ (by omega) hj2
        exact List.Lex.cons htail

/-- The staged chunk files of `FileGlob.mutate` carry filenames in strictly
decreasing lexicographic order as the chunk index increases. -/
theorem fileGlobFiles_pairwise_rev (sizePref : Nat) (userCmd : List Char)
    (hp : sizePref = 1 ∨ sizePref = 2 ∨ sizePref = 3) (hne : userCmd ≠ []) :
    (fileGlobFiles sizePref userCmd).Pairwise (fun p q => List.Lex (· < ·) q.1 p.1) := by
  have hs := setSizes_pos sizePref userCmd.length hp
  have hchunks := pyChunks_ne_nil userCmd (setSizes sizePref userCmd.length) hne hs
  have hn : (pyChunks userCmd (setSizes sizePref userCmd.length)).length ≠ 0 := by
    simpa [List.length_eq_zero] using hchunks
  have hw := globWidth_pos (pyChunks userCmd (setSizes sizePref userCmd.length)).length
  have hbound := lt_two_pow_globWidth _ hn
  unfold fileGlobFiles globPrintLines
  rw [List.pairwise_map]
  refine List.Pairwise.imp_of_mem ?_ (List.pairwise_lt_range _)
  intro i j hi hj hij
  rw [List.mem_range] at hi hj
  show List.Lex (· < ·)
    (indexPattern (globWidth (pyChunks userCmd (setSizes sizePref userCmd.length)).length) j)
    (indexPattern (globWidth (pyChunks userCmd (setSizes sizePref userCmd.length)).length) i)
  rw [indexPattern_eq_patBE _ _ hw (by omega), indexPattern_eq_patBE _ _ hw (by omega)]
  exact patBE_rev_lt _ i j hij (by omega)

/-! ### Claim C2 (corrected): digit mapping and filename order -/

/-- Claim C2, counterexample: the code maps index digit `'0'` to `'?'` and
digit `'1'` to the newline character, but newline (code point 10) sorts
strictly *before* `'?'` (code point 63), not after it; already for a
two-chunk command the filename of chunk 0 does not precede the filename of
chunk 1 lexicographically. -/
theorem indexPattern_order_counterexample :
    indexPattern 1 0 = ['?'] ∧ indexPattern 1 1 = ['\n'] ∧
    ¬ List.Lex (· < ·) (indexPattern 1 0) (indexPattern 1 1) ∧ ¬ ('?' < '\n') := by
  refine ⟨indexPattern_one_zero, indexPattern_one_one, ?_, by decide⟩
  rw [indexPattern_one_zero, indexPattern_one_one]
  decide

/-- Claim C2, amended: in the glob encoders' chunk filenames every binary
digit `'0'` of the chunk index is replaced by `'?'` (the character matching
exactly one arbitrary character under the target interpreter's globbing
rules) and every digit `'1'` by the newline character, which sorts strictly
*before* `'?'` lexicographically; consequently, for every nonempty command
the lexicographic order of the emitted chunk filenames is the *reverse* of
the numeric order of the chunk indices. -/
theorem indexPattern_reverse_order (w i j sizePref : Nat) (userCmd : List Char)
    (hw : 1 ≤ w) (hij : i < j) (hj : j < 2 ^ w)
    (hp : sizePref = 1 ∨ sizePref = 2 ∨ sizePref = 3) (hne : userCmd ≠ []) :
    ('\n' < '?') ∧
    List.Lex (· < ·) (indexPattern w j) (indexPattern w i) ∧
    (fileGlobFiles sizePref userCmd).Pairwise (fun p q => List.Lex (· < ·) q.1 p.1) := by
  refine ⟨by decide, ?_, fileGlobFiles_pairwise_rev sizePref userCmd hp hne⟩
  rw [indexPattern_eq_patBE w j hw hj, indexPattern_eq_patBE w i hw (by omega)]
  exact patBE_rev_lt w i j hij hj

/-- Witness for claim C2's amended theorem: width 1, chunk indices 0 and 1,
and the staged files of `FileGlob` on `"id"`. -/
theorem indexPattern_reverse_order_witness :
    (1 ≤ 1 ∧ 0 < 1 ∧ 1 < 2 ^ 1 ∧ ((3 : Nat) = 1 ∨ (3 : Nat) = 2 ∨ (3 : Nat) = 3) ∧
      (['i', 'd'] : List Char) ≠ []) ∧
    List.Lex (· < ·) (indexPattern 1 1) (indexPattern 1 0) ∧
    (fileGlobFiles 3 ['i', 'd']).Pairwise (fun p q => List.Lex (· < ·) q.1 p.1) := by
  have h := indexPattern_reverse_order 1 0 1 3 ['i', 'd'] (by decide) (by decide) (by decide)
    (by decide) (by decide)
  exact ⟨⟨by decide, by decide, by decide, by decide, by decide⟩, h.2.1, h.2.2⟩

/-! ### Helper lemmas: sorted wildcard expansion of reverse-ordered files -/

theorem orderedInsert_last (x : List Char × List Char) :
    ∀ l : List (List Char × List Char), (∀ b ∈ l, ¬ (x.1 ≤ b.1)) →
      List.orderedInsert (fun p q => p.1 ≤ q.1) x l = l ++ [x] := by
  intro l
  induction l with
  | nil => intro _; rfl
  | cons b t ih =>
    intro h
    rw [List.orderedInsert, if_neg (h b (List.mem_cons_self b t))]
    rw [ih (fun b' hb' => h b' (List.mem_cons_of_mem b hb')), List.cons_append]

/-- Sorting a list of files whose names strictly decrease reverses it. -/
theorem insertionSort_of_rev_sorted :
    ∀ l : List (List Char × List Char),
      l.Pairwise (fun p q => List.Lex (· < ·) q.1 p.1) →
      List.insertionSort (fun p q => p.1 ≤ q.1) l = l.reverse := by
  intro l
  induction l with
  | nil => intro _; rfl
  | cons x t ih =>
    intro hp
    rw [List.pairwise_cons] at hp
    rw [List.insertionSort, ih hp.2, List.reverse_cons]
    apply orderedInsert_last
    intro b hb
    rw [List.mem_reverse] at hb
    rw [not_le]
    exact hp.1 b hb

/-- The file data staged by `FileGlob.mutate` are exactly the chunks, in
chunk order. -/
theorem fileGlobFiles_map_snd (sizePref : Nat) (userCmd : List Char) :
    (fileGlobFiles sizePref userCmd).map Prod.snd =
      pyChunks userCmd (setSizes sizePref userCmd.length) := by
  unfold fileGlobFiles globPrintLines escapeQuotes
  rw [List.map_map]
  exact map_getD_range [] _

/-- Under the modelled lexicographically sorted wildcard expansion, the
`FileGlob` payload evaluates to the chunks concatenated in *reverse* index
order. -/
theorem fileGlobEval_reversed (sizePref : Nat) (userCmd : List Char)
    (hp : sizePref = 1 ∨ sizePref = 2 ∨ sizePref = 3) (hne : userCmd ≠ []) :
    fileGlobEval sizePref userCmd =
      Except.ok ((pyChunks userCmd (setSizes sizePref userCmd.length)).reverse.flatten) := by
  have hs := setSizes_pos sizePref userCmd.length hp
  have hchunks := pyChunks_ne_nil userCmd (setSizes sizePref userCmd.length) hne hs
  simp only [fileGlobEval, fileGlobMutate, globGenerate]
  rw [if_neg (by simpa using hchunks)]
  simp only [Except.map]
  congr 1
  unfold globEval
  rw [insertionSort_of_rev_sorted _ (fileGlobFiles_pairwise_rev sizePref userCmd hp hne),
    List.map_reverse, fileGlobFiles_map_snd]

/-! ### Helper lemmas: reading ranges and maps back -/

theorem getD_map_range {β : Type} (f : Nat → β) (n i : Nat) (d : β) (h : i < n) :
    ((List.range n).map f).getD i d = f i := by
  rw [List.getD_eq_getElem?_getD, List.getElem?_map, List.getElem?_range h]
  rfl

/-! ### Helper lemmas: the digest search -/

/-- A successful substring search finds the pattern: the slice of the
searched string at the returned index with the pattern's length is the
pattern, and it lies inside the string. -/
theorem strFind_slice : ∀ (s pat : List Char) (i : Nat), strFind s pat = some i →
    (s.drop i).take pat.length = pat ∧ i + pat.length ≤ s.length := by
  intro s
  induction s with
  | nil =>
    intro pat i h
    rw [strFind] at h
    by_cases hc : ([] : List Char).take pat.length = pat
    · rw [if_pos hc] at h
      obtain rfl : (0 : Nat) = i := Option.some.inj h
      have hpat : pat = [] := by
        rw [← hc, List.take_nil]
      subst hpat
      exact ⟨rfl, by simp⟩
    · rw [if_neg hc] at h
      cases h
  | cons c t ih =>
    intro pat i h
    rw [strFind] at h
    by_cases hc : (c :: t).take pat.length = pat
    · rw [if_pos hc] at h
      obtain rfl : (0 : Nat) = i := Option.some.inj h
      refine ⟨hc, ?_⟩
      have := congrArg List.length hc
      rw [List.length_take] at this
      omega
    · rw [if_neg hc] at h
      cases hf : strFind t pat with
      | none =>
        rw [hf] at h
        cases h
      | some i' =>
        rw [hf] at h
        obtain rfl : i' + 1 = i := Option.some.inj h
        obtain ⟨h1, h2⟩ := ih pat i' hf
        refine ⟨?_, by simp [List.length_cons]; omega⟩
        rw [List.drop_succ_cons]
        exact h1

/-- A successful digest search returns a seed whose digest contains the
target, together with the first index of the target in that digest. -/
theorem hexHashFindSeed_strFind (hash : List Char → List Char) (seeds : Nat → List Char)
    (target : List Char) :
    ∀ (fuel k : Nat) (seed : List Char) (idx : Nat),
      hexHashFindSeed hash seeds target k fuel = some (seed, idx) →
      strFind (hash seed) target = some idx := by
  intro fuel
  induction fuel with
  | zero =>
    intro k seed idx h
    cases h
  | succ n ih =>
    intro k seed idx h
    rw [hexHashFindSeed] at h
    cases hf : strFind (hash (seeds k)) target with
    | some j =>
      rw [hf] at h
      obtain ⟨rfl, rfl⟩ : seeds k = seed ∧ j = idx := by
        have := Option.some.inj h
        exact ⟨congrArg Prod.fst this, congrArg Prod.snd this⟩
      exact hf
    | none =>
      rw [hf] at h
      exact ih (k + 1) seed idx h

theorem hexDigitVal_digitChar (d : Nat) (hd : d < 16) :
    hexDigitVal (Nat.digitChar d) = d := by
  interval_cases d <;> decide

theorem hexPairVal_charHex (ch : Char) (h : ch.toNat < 256) :
    hexPairVal (charHex ch) = ch.toNat := by
  show hexDigitVal (Nat.digitChar (ch.toNat / 16)) * 16 +
      hexDigitVal (Nat.digitChar (ch.toNat % 16)) = ch.toNat
  rw [hexDigitVal_digitChar _ (by omega), hexDigitVal_digitChar _ (by omega)]
  omega

/-! ### Claim C1 (corrected): round trip of the three encoders -/

/-- Claim C1, counterexample: under the modelled target interpreter (sorted
wildcard expansion in lexicographic filename order), the `FileGlob` payload
for the command `"id"` at maximum obfuscation preference evaluates to
`"di"`, not to the original command: the newline-named chunk file sorts
first. -/
theorem fileGlobEval_counterexample :
    fileGlobEval 3 ['i', 'd'] = Except.ok ['d', 'i'] ∧
    (Except.ok ['d', 'i'] : Except String (List Char)) ≠ Except.ok ['i', 'd'] := by
  constructor
  · rw [fileGlobEval_reversed 3 ['i', 'd'] (by decide) (by decide)]
    simp [setSizes, pyChunks]
  · simp

/-- Claim C1, amended: for every command, the `XorNonNull` decode loop
reproduces the original command bytes from the cipher bytes, and every
`HexHash` payload line evaluates to the byte value of its ASCII character;
for `FileGlob`, however, the evaluation under the modelled sorted wildcard
expansion yields the chunks concatenated in *reverse* index order, which
coincides with the original command only in degenerate cases such as a
single chunk. -/
theorem encoder_roundtrip (userCmd key : List Char) (keyLen : Nat)
    (hash : List Char → List Char) (seeds : Nat → List Char) (ch : Char)
    (k fuel : Nat) (seed : List Char) (idx : Nat) (sizePref : Nat) (globCmd : List Char)
    (hkl : keyLen = key.length)
    (hascii : ch.toNat < 128)
    (hfound : hexHashFindSeed hash seeds (charHex ch) k fuel = some (seed, idx))
    (hp : sizePref = 1 ∨ sizePref = 2 ∨ sizePref = 3) (hne : globCmd ≠ []) :
    xorDecodeLoop (xorCipherBytes userCmd key keyLen) key = userCmd.map Char.toNat ∧
    hexHashLineEval hash seed idx = ch.toNat ∧
    fileGlobEval sizePref globCmd =
      Except.ok ((pyChunks globCmd (setSizes sizePref globCmd.length)).reverse.flatten) := by
  refine ⟨?_, ?_, fileGlobEval_reversed sizePref globCmd hp hne⟩
  · subst hkl
    unfold xorDecodeLoop xorCipherBytes
    simp only [List.length_map, List.length_range]
    conv_rhs => rw [← map_getD_range ' ' userCmd, List.map_map]
    apply List.map_congr_left
    intro i hi
    rw [List.mem_range] at hi
    rw [getD_map_range _ _ _ _ hi, Nat.xor_assoc, Nat.xor_self, Nat.xor_zero]
    rfl
  · have hf := hexHashFindSeed_strFind hash seeds (charHex ch) fuel k seed idx hfound
    obtain ⟨hslice, hbound⟩ := strFind_slice (hash seed) (charHex ch) idx hf
    have hlen2 : (charHex ch).length = 2 := rfl
    rw [hlen2] at hslice hbound
    unfold hexHashLineEval
    rw [List.drop_append_of_le_length (by omega),
      List.take_append_of_le_length (by rw [List.length_drop]; omega),
      hslice, hexPairVal_charHex ch (by omega)]

/-- Witness for claim C1's amended theorem: a two-byte command with a
one-byte key for the XOR part, a digest oracle containing `"69"` for the
HexHash character `'i'`, and `FileGlob` on `"id"`. -/
theorem encoder_roundtrip_witness :
    ((1 : Nat) = (['k'] : List Char).length ∧ ('i').toNat < 128 ∧
      hexHashFindSeed (fun _ => ['a', '6', '9']) (fun _ => ['s']) (charHex 'i') 0 1 =
        some (['s'], 1) ∧
      ((3 : Nat) = 1 ∨ (3 : Nat) = 2 ∨ (3 : Nat) = 3) ∧ (['i', 'd'] : List Char) ≠ []) ∧
    xorDecodeLoop (xorCipherBytes ['l', 's'] ['k'] 1) ['k'] = ['l', 's'].map Char.toNat ∧
    hexHashLineEval (fun _ => ['a', '6', '9']) ['s'] 1 = ('i').toNat ∧
    fileGlobEval 3 ['i', 'd'] =
      Except.ok ((pyChunks ['i', 'd'] (setSizes 3 (['i', 'd'] : List Char).length)).reverse.flatten) := by
  have h := encoder_roundtrip ['l', 's'] ['k'] 1 (fun _ => ['a', '6', '9']) (fun _ => ['s']) 'i'
    0 1 ['s'] 1 3 ['i', 'd'] (by decide) (by decide) (by decide) (by decide) (by decide)
  exact ⟨⟨by decide, by decide, by decide, by decide, by decide⟩, h.1, h.2.1, h.2.2⟩

/-! ### Claim C9: the HexHash digest slice -/

/-- Claim C9: in `HexHash.mutate`, for every ASCII character of the command,
when the search loop exits, the hex digest of the recorded seed string
contains the character's two-hex-digit byte value starting at the recorded
offset, and the two-hex-digit slice of the digest at that offset — the slice
the emitted `cut` range extracts — equals exactly the byte value of that
character. -/
theorem hexHash_digest_slice (hash : List Char → List Char) (seeds : Nat → List Char)
    (ch : Char) (k fuel : Nat) (seed : List Char) (idx : Nat)
    (hascii : ch.toNat < 128)
    (hfound : hexHashFindSeed hash seeds (charHex ch) k fuel = some (seed, idx)) :
    strFind (hash seed) (charHex ch) = some idx ∧
    ((hash seed).drop idx).take 2 = charHex ch ∧
    hexPairVal (((hash seed).drop idx).take 2) = ch.toNat := by
  have hf := hexHashFindSeed_strFind hash seeds (charHex ch) fuel k seed idx hfound
  obtain ⟨hslice, hbound⟩ := strFind_slice (hash seed) (charHex ch) idx hf
  have hlen2 : (charHex ch).length = 2 := rfl
  rw [hlen2] at hslice
  exact ⟨hf, hslice, by rw [hslice]; exact hexPairVal_charHex ch (by omega)⟩

/-- Witness for claim C9 at a concrete digest oracle. -/
theorem hexHash_digest_slice_witness :
    (('i').toNat < 128 ∧
      hexHashFindSeed (fun _ => ['a', '6', '9']) (fun _ => ['s']) (charHex 'i') 0 1 =
        some (['s'], 1)) ∧
    strFind ((fun _ => ['a', '6', '9']) ['s']) (charHex 'i') = some 1 ∧
    (((fun _ => ['a', '6', '9']) ['s']).drop 1).take 2 = charHex 'i' ∧
    hexPairVal ((((fun _ => ['a', '6', '9']) ['s']).drop 1).take 2) = ('i').toNat := by
  have h := hexHash_digest_slice (fun _ => ['a', '6', '9']) (fun _ => ['s']) 'i' 0 1 ['s'] 1
    (by decide) (by decide)
  exact ⟨⟨by decide, by decide⟩, h.1, h.2.1, h.2.2⟩

/-! ### Helper lemmas: strides and list updates -/

theorem mem_pyStride_iff (userCmd : List Char) (i k : Nat) (c : Char) :
    c ∈ pyStride userCmd i k ↔
      ∃ j, j < userCmd.length ∧ i ≤ j ∧ (j - i) % k = 0 ∧ userCmd.getD j ' ' = c := by
  unfold pyStride
  simp only [List.mem_filterMap, List.mem_range]
  constructor
  · rintro ⟨j, hj, hfc⟩
    by_cases hP : i ≤ j ∧ (j - i) % k = 0
    · rw [if_pos hP] at hfc
      exact ⟨j, hj, hP.1, hP.2, Option.some.inj hfc⟩
    · rw [if_neg hP] at hfc
      cases hfc
  · rintro ⟨j, hj, h1, h2, h3⟩
    exact ⟨j, hj, by rw [if_pos ⟨h1, h2⟩, h3]⟩

/-- Every command position belongs to the stride of its residue modulo the
key length. -/
theorem getD_mem_pyStride (userCmd : List Char) (k j : Nat) (hj : j < userCmd.length) :
    userCmd.getD j ' ' ∈ pyStride userCmd (j % k) k := by
  have h4 : j - j % k = k * (j / k) := by
    have := Nat.mod_add_div j k
    omega
  rw [mem_pyStride_iff]
  refine ⟨j, hj, Nat.mod_le j k, ?_, rfl⟩
  rw [h4]
  exact Nat.mul_mod_right k _

/-- When the key is at least as long as the command, every stride holds at
most the single character at its start position. -/
theorem pyStride_subsingleton (userCmd : List Char) (i k : Nat) (hk : userCmd.length ≤ k) :
    ∀ c ∈ pyStride userCmd i k, c = userCmd.getD i ' ' := by
  intro c hc
  rw [mem_pyStride_iff] at hc
  obtain ⟨j, hj, hij, hmod, rfl⟩ := hc
  have hlt : j - i < k := by omega
  rw [Nat.mod_eq_of_lt hlt] at hmod
  rw [show j = i from by omega]

theorem getD_set_ne (l : List Char) (m n : Nat) (a : Char) (h : m ≠ n) (d : Char) :
    (l.set m a).getD n d = l.getD n d := by
  rw [List.getD_eq_getElem?_getD, List.getD_eq_getElem?_getD, List.getElem?_set_ne h]

theorem getD_set_eq (l : List Char) (m : Nat) (a : Char) (h : m < l.length) (d : Char) :
    (l.set m a).getD m d = a := by
  rw [List.getD_eq_getElem?_getD, List.getElem?_set_eq h]
  rfl

theorem getD_mem (l : List Char) (m : Nat) (d : Char) (hm : m < l.length) :
    l.getD m d ∈ l := by
  rw [List.getD_eq_getElem?_getD, List.getElem?_eq_getElem hm]
  exact List.getElem_mem hm

theorem getD_zero_mem : ∀ l : List Char, l ≠ [] → l.getD 0 ' ' ∈ l := by
  intro l h
  cases l with
  | nil => exact absurd rfl h
  | cons c t => exact List.mem_cons_self c t

/-- An allowed alphabet with two distinct characters always leaves a
nonempty blacklist against a stride holding at most one character. -/
theorem blacklist_nonempty (allowed : List Char) (x : Char)
    (hnd : allowed.Nodup) (h2 : 2 ≤ allowed.length) (s : List Char)
    (hs : ∀ c ∈ s, c = x) :
    0 < (allowed.filter (fun c => decide (c ∉ s))).length := by
  match allowed, h2 with
  | a :: b :: t, _ =>
    have hab : a ≠ b := by
      rw [List.nodup_cons] at hnd
      exact fun e => hnd.1 (e ▸ List.mem_cons_self b t)
    by_cases ha : a ∈ s
    · have hb : b ∉ s := by
        intro hbs
        exact hab ((hs a ha).trans (hs b hbs).symm)
      have hmem : b ∈ (a :: b :: t).filter (fun c => decide (c ∉ s)) :=
        List.mem_filter.mpr ⟨List.mem_cons_of_mem a (List.mem_cons_self b t), by simpa using hb⟩
      exact List.length_pos.mpr (List.ne_nil_of_mem hmem)
    · have hmem : a ∈ (a :: b :: t).filter (fun c => decide (c ∉ s)) :=
        List.mem_filter.mpr ⟨List.mem_cons_self a _, by simpa using ha⟩
      exact List.length_pos.mpr (List.ne_nil_of_mem hmem)

/-! ### Helper lemmas: the genXorKey loop invariant -/

/-- A successful run of the `genXorKey` loop preserves the key length and
untouched positions, and leaves every processed position's key character
outside that position's stride. -/
theorem genXorKeyGo_some (allowed : List Char) (select : List Char → Char)
    (userCmd : List Char) (keyLen : Nat)
    (hsel : ∀ l : List Char, l ≠ [] → select l ∈ l) :
    ∀ (is : List Nat) (key key' : List Char),
      genXorKeyGo allowed select userCmd keyLen is key = some key' →
      key'.length = key.length ∧
      (∀ j, j ∉ is → key'.getD j ' ' = key.getD j ' ') ∧
      (∀ i ∈ is, i < key.length → key'.getD i ' ' ∉ pyStride userCmd i keyLen) := by
  intro is
  induction is with
  | nil =>
    intro key key' h
    obtain rfl : key = key' := Option.some.inj h
    exact ⟨rfl, fun _ _ => rfl, fun i hi => absurd hi (List.not_mem_nil i)⟩
  | cons i rest ih =>
    intro key key' h
    simp only [genXorKeyGo] at h
    by_cases hmem : key.getD i ' ' ∈ pyStride userCmd i keyLen
    · rw [if_pos hmem] at h
      by_cases hbl :
          0 < (allowed.filter (fun c => decide (c ∉ pyStride userCmd i keyLen))).length
      · rw [if_pos hbl] at h
        obtain ⟨hlen', hpres, hinv⟩ := ih _ _ h
        have hblne : allowed.filter (fun c => decide (c ∉ pyStride userCmd i keyLen)) ≠ [] := by
          intro e
          rw [e] at hbl
          simp at hbl
        have hselmem := hsel _ hblne
        rw [List.mem_filter] at hselmem
        have hselout :
            select (allowed.filter (fun c => decide (c ∉ pyStride userCmd i keyLen))) ∉
              pyStride userCmd i keyLen := by
          simpa using hselmem.2
        refine ⟨by rw [hlen', List.length_set], ?_, ?_⟩
        · intro j hj
          have hji : i ≠ j := fun e => hj (e ▸ List.mem_cons_self i rest)
          have hjrest : j ∉ rest := fun e => hj (List.mem_cons_of_mem _ e)
          rw [hpres j hjrest, getD_set_ne _ _ _ _ hji]
        · intro i' hi' hilen
          rcases List.mem_cons.mp hi' with rfl | hirest
          · by_cases hir : i' ∈ rest
            · exact hinv i' hir (by rw [List.length_set]; exact hilen)
            · rw [hpres i' hir, getD_set_eq _ _ _ hilen]
              exact hselout
          · exact hinv i' hirest (by rw [List.length_set]; exact hilen)
      · rw [if_neg hbl] at h
        cases h
    · rw [if_neg hmem] at h
      obtain ⟨hlen', hpres, hinv⟩ := ih _ _ h
      refine ⟨hlen', ?_, ?_⟩
      · intro j hj
        exact hpres j (fun e => hj (List.mem_cons_of_mem _ e))
      · intro i' hi' hilen
        rcases List.mem_cons.mp hi' with rfl | hirest
        · by_cases hir : i' ∈ rest
          · exact hinv i' hir hilen
          · rw [hpres i' hir]
            exact hmem
        · exact hinv i' hirest hilen

theorem char_toNat_inj {a b : Char} (h : a.toNat = b.toNat) : a = b :=
  Char.ext (UInt32.ext h)

/-! ### Claim C3: a generated key never XORs to a null byte -/

/-- Claim C3: for every command and every key returned by `genXorKey`, no
character at stride `i` of the command equals the key character at position
`i`; hence XOR-ing the command bytes with the repeating key, as
`XorNonNull.mutate` does, never produces a zero byte at any position. -/
theorem genXorKey_no_null (allowed : List Char) (select : List Char → Char)
    (draw userCmd : List Char) (keyLen : Nat) (key : List Char)
    (hsel : ∀ l : List Char, l ≠ [] → select l ∈ l)
    (hdlen : draw.length = keyLen) (hkpos : keyLen ≠ 0)
    (hsome : genXorKey allowed select draw keyLen userCmd = some key) :
    (∀ i, i < keyLen → ∀ c ∈ pyStride userCmd i keyLen, c ≠ key.getD i ' ') ∧
    (∀ j, j < userCmd.length →
      (userCmd.getD j ' ').toNat ^^^ (key.getD (j % keyLen) ' ').toNat ≠ 0) ∧
    (∀ j, j < userCmd.length → (xorCipherBytes userCmd key keyLen).getD j 0 ≠ 0) := by
  obtain ⟨hlen, hpres, hinv⟩ :=
    genXorKeyGo_some allowed select userCmd keyLen hsel (List.range keyLen) draw key hsome
  have havoid : ∀ i, i < keyLen → key.getD i ' ' ∉ pyStride userCmd i keyLen := by
    intro i hi
    exact hinv i (List.mem_range.mpr hi) (by rw [hdlen]; exact hi)
  have h2 : ∀ j, j < userCmd.length →
      (userCmd.getD j ' ').toNat ^^^ (key.getD (j % keyLen) ' ').toNat ≠ 0 := by
    intro j hj
    have hmem := getD_mem_pyStride userCmd keyLen j hj
    have hne : userCmd.getD j ' ' ≠ key.getD (j % keyLen) ' ' := by
      intro he
      exact havoid (j % keyLen) (Nat.mod_lt j (Nat.pos_of_ne_zero hkpos)) (he ▸ hmem)
    rw [Ne, Nat.xor_eq_zero]
    intro he
    exact hne (char_toNat_inj he)
  refine ⟨?_, h2, ?_⟩
  · intro i hi c hc hceq
    exact havoid i hi (hceq ▸ hc)
  · intro j hj
    unfold xorCipherBytes
    rw [getD_map_range _ _ _ _ hj]
    exact h2 j hj

/-- Witness for claim C3: alphabet `{a, b}`, drawn key `"a"`, command
`"bc"`. -/
theorem genXorKey_no_null_witness :
    ((∀ l : List Char, l ≠ [] → l.getD 0 ' ' ∈ l) ∧
      (['a'] : List Char).length = 1 ∧ (1 : Nat) ≠ 0 ∧
      genXorKey ['a', 'b'] (fun l => l.getD 0 ' ') ['a'] 1 ['b', 'c'] = some ['a']) ∧
    (∀ j, j < (['b', 'c'] : List Char).length →
      ((['b', 'c'] : List Char).getD j ' ').toNat ^^^
        ((['a'] : List Char).getD (j % 1) ' ').toNat ≠ 0) := by
  have h := genXorKey_no_null ['a', 'b'] (fun l => l.getD 0 ' ') ['a'] ['b', 'c'] 1 ['a']
    getD_zero_mem rfl (by decide) (by decide)
  exact ⟨⟨getD_zero_mem, rfl, by decide, by decide⟩, h.2.1⟩

/-! ### Claim C7: a full stride makes genXorKey fail, and the loop retries -/

/-- If position `i`'s stride covers the whole allowed alphabet, the loop
returns `none` as soon as it reaches `i` (whose key character was drawn from
the alphabet and is untouched until then). -/
theorem genXorKeyGo_none (allowed : List Char) (select : List Char → Char)
    (userCmd : List Char) (keyLen i : Nat)
    (hfull : ∀ c ∈ allowed, c ∈ pyStride userCmd i keyLen) :
    ∀ (is : List Nat) (key : List Char), i ∈ is → key.getD i ' ' ∈ allowed →
      genXorKeyGo allowed select userCmd keyLen is key = none := by
  intro is
  induction is with
  | nil =>
    intro key hmem _
    exact absurd hmem (List.not_mem_nil i)
  | cons i0 rest ih =>
    intro key hmem hkey
    simp only [genXorKeyGo]
    by_cases hii : i0 = i
    · subst hii
      rw [if_pos (hfull _ hkey)]
      have hbl :
          (allowed.filter (fun c => decide (c ∉ pyStride userCmd i0 keyLen))).length = 0 := by
        rw [List.length_eq_zero, List.filter_eq_nil_iff]
        intro c hc
        simpa using hfull c hc
      rw [if_neg (by omega)]
    · have hrest : i ∈ rest := by
        rcases List.mem_cons.mp hmem with h | h
        · exact absurd h.symm hii
        · exact h
      by_cases hm0 : key.getD i0 ' ' ∈ pyStride userCmd i0 keyLen
      · rw [if_pos hm0]
        by_cases hbl :
            0 < (allowed.filter (fun c => decide (c ∉ pyStride userCmd i0 keyLen))).length
        · rw [if_pos hbl]
          apply ih _ hrest
          rw [getD_set_ne _ _ _ _ hii]
          exact hkey
        · rw [if_neg hbl]
      · rw [if_neg hm0]
        exact ih _ hrest hkey

/-- Claim C7: if at some key position the set of characters at that
position's stride equals the entire allowed character set, `genXorKey` at
that length returns `none` rather than raising a fatal error, and whenever
an attempt returns `none` the retry loop of `XorNonNull.mutate` tries again
with the key length increased. -/
theorem genXorKey_full_stride_retries (allowed : List Char) (select : List Char → Char)
    (draws : Nat → List Char) (userCmd : List Char) (keyLen i : Nat)
    (hi : i < keyLen)
    (hdlen : (draws keyLen).length = keyLen)
    (hdraw : ∀ c ∈ draws keyLen, c ∈ allowed)
    (hsub : ∀ c ∈ pyStride userCmd i keyLen, c ∈ allowed)
    (hfull : ∀ c ∈ allowed, c ∈ pyStride userCmd i keyLen) :
    genXorKey allowed select (draws keyLen) keyLen userCmd = none ∧
    (∀ L fuel, genXorKey allowed select (draws (L + 1)) (L + 1) userCmd = none →
      (xorKeyLoop allowed select draws userCmd L (fuel + 1)).1 =
        (L + 1) :: (xorKeyLoop allowed select draws userCmd (L + 1) fuel).1 ∧
      (xorKeyLoop allowed select draws userCmd L (fuel + 1)).2 =
        (xorKeyLoop allowed select draws userCmd (L + 1) fuel).2 ∧
      (xorKeyLoop allowed select draws userCmd (L + 1) (fuel + 1)).1.head? =
        some (L + 2)) := by
  constructor
  · apply genXorKeyGo_none allowed select userCmd keyLen i hfull (List.range keyLen) _
      (List.mem_range.mpr hi)
    apply hdraw
    apply getD_mem
    rw [hdlen]
    exact hi
  · intro L fuel hnone
    refine ⟨?_, ?_, xorKeyLoop_trace_head allowed select draws userCmd (L + 1) fuel⟩
    · rw [xorKeyLoop, hnone]
    · rw [xorKeyLoop, hnone]

/-- Witness for claim C7: alphabet `{a, b}`, command `"ab"`, key length 1 —
the single stride is the whole command and covers the whole alphabet. -/
theorem genXorKey_full_stride_retries_witness :
    ((0 : Nat) < 1 ∧ (List.replicate 1 'a').length = 1 ∧
      (∀ c ∈ List.replicate 1 'a', c ∈ (['a', 'b'] : List Char)) ∧
      (∀ c ∈ pyStride ['a', 'b'] 0 1, c ∈ (['a', 'b'] : List Char)) ∧
      (∀ c ∈ (['a', 'b'] : List Char), c ∈ pyStride ['a', 'b'] 0 1)) ∧
    genXorKey ['a', 'b'] (fun l => l.getD 0 ' ')
      ((fun n => List.replicate n 'a') 1) 1 ['a', 'b'] = none := by
  have h := genXorKey_full_stride_retries ['a', 'b'] (fun l => l.getD 0 ' ')
    (fun n => List.replicate n 'a') ['a', 'b'] 1 0 (by decide) (by decide) (by decide)
    (by decide) (by decide)
  exact ⟨⟨by decide, by decide, by decide, by decide, by decide⟩, h.1⟩

/-! ### Claim C8: the retry loop is monotone and terminates -/

/-- With at least two distinct allowed characters and a key at least as long
as the command, every stride holds at most one character, so the loop never
runs out of blacklist characters and key generation succeeds. -/
theorem genXorKeyGo_isSome (allowed : List Char) (select : List Char → Char)
    (userCmd : List Char) (keyLen : Nat)
    (hnd : allowed.Nodup) (h2 : 2 ≤ allowed.length) (hk : userCmd.length ≤ keyLen) :
    ∀ (is : List Nat) (key : List Char),
      (genXorKeyGo allowed select userCmd keyLen is key).isSome := by
  intro is
  induction is with
  | nil =>
    intro key
    rfl
  | cons i rest ih =>
    intro key
    simp only [genXorKeyGo]
    by_cases hm : key.getD i ' ' ∈ pyStride userCmd i keyLen
    · rw [if_pos hm]
      have hbl := blacklist_nonempty allowed (userCmd.getD i ' ') hnd h2 _
        (pyStride_subsingleton userCmd i keyLen hk)
      rw [if_pos hbl]
      exact ih _
    · rw [if_neg hm]
      exact ih _

/-- The attempted key lengths of the retry loop are strictly increasing. -/
theorem xorKeyLoop_trace_chain (allowed : List Char) (select : List Char → Char)
    (draws : Nat → List Char) (userCmd : List Char) :
    ∀ fuel keyLen,
      List.Chain' (· < ·) (xorKeyLoop allowed select draws userCmd keyLen fuel).1 := by
  intro fuel
  induction fuel with
  | zero =>
    intro keyLen
    simp [xorKeyLoop]
  | succ n ih =>
    intro keyLen
    rw [xorKeyLoop]
    cases h : genXorKey allowed select (draws (keyLen + 1)) (keyLen + 1) userCmd with
    | some key => simp
    | none =>
      simp only
      rw [List.chain'_cons']
      refine ⟨?_, ih (keyLen + 1)⟩
      intro b hb
      cases n with
      | zero =>
        simp [xorKeyLoop] at hb
      | succ m =>
        rw [xorKeyLoop_trace_head] at hb
        simp at hb
        omega

/-- With fuel `len(command) + 1` the retry loop always reaches a length at
least the command length, where generation succeeds. -/
theorem xorKeyLoop_terminates (allowed : List Char) (select : List Char → Char)
    (draws : Nat → List Char) (userCmd : List Char)
    (hnd : allowed.Nodup) (h2 : 2 ≤ allowed.length) :
    ∀ fuel keyLen, 1 ≤ fuel → userCmd.length ≤ keyLen + fuel →
      ((xorKeyLoop allowed select draws userCmd keyLen fuel).2).isSome := by
  intro fuel
  induction fuel with
  | zero =>
    intro keyLen h1 _
    omega
  | succ n ih =>
    intro keyLen _ hle
    rw [xorKeyLoop]
    cases h : genXorKey allowed select (draws (keyLen + 1)) (keyLen + 1) userCmd with
    | some key => rfl
    | none =>
      have hgt : ¬ (userCmd.length ≤ keyLen + 1) := by
        intro hle1
        have hsome := genXorKeyGo_isSome allowed select userCmd (keyLen + 1) hnd h2 hle1
          (List.range (keyLen + 1)) (draws (keyLen + 1))
        unfold genXorKey at h
        rw [h] at hsome
        cases hsome
      cases n with
      | zero => omega
      | succ m =>
        simp only
        exact ih (keyLen + 1) (by omega) (by omega)

/-- Claim C8: the key-length retry loop of `XorNonNull.mutate` attempts
strictly monotonically increasing key lengths, and for every command whose
characters are drawn from the allowed character set (of at least two
distinct characters) the loop terminates: within `len(command) + 1`
attempts some key length yields a successful key. -/
theorem xor_retry_monotone_and_terminates (allowed : List Char) (select : List Char → Char)
    (draws : Nat → List Char) (userCmd : List Char) (startLen : Nat)
    (hnd : allowed.Nodup) (h2 : 2 ≤ allowed.length)
    (hcmd : ∀ c ∈ userCmd, c ∈ allowed)
    (hdlen : ∀ L, (draws L).length = L) :
    (∀ fuel, List.Chain' (· < ·) (xorKeyLoop allowed select draws userCmd startLen fuel).1) ∧
    ((xorKeyLoop allowed select draws userCmd startLen (userCmd.length + 1)).2).isSome :=
  ⟨fun fuel => xorKeyLoop_trace_chain allowed select draws userCmd fuel startLen,
    xorKeyLoop_terminates allowed select draws userCmd hnd h2 (userCmd.length + 1) startLen
      (by omega) (by omega)⟩

/-- Witness for claim C8: alphabet `{a, b}`, command `"ab"`, initial length
0 — the loop's trace is strictly increasing and the search succeeds within
three attempts. -/
theorem xor_retry_monotone_and_terminates_witness :
    ((['a', 'b'] : List Char).Nodup ∧ 2 ≤ (['a', 'b'] : List Char).length ∧
      (∀ c ∈ (['a', 'b'] : List Char), c ∈ (['a', 'b'] : List Char)) ∧
      (∀ L, ((fun n => List.replicate n 'a') L).length = L)) ∧
    List.Chain' (· < ·) (xorKeyLoop ['a', 'b'] (fun l => l.getD 0 ' ')
      (fun n => List.replicate n 'a') ['a', 'b'] 0 3).1 ∧
    ((xorKeyLoop ['a', 'b'] (fun l => l.getD 0 ' ')
      (fun n => List.replicate n 'a') ['a', 'b'] 0 ((['a', 'b'] : List Char).length + 1)).2).isSome := by
  have h := xor_retry_monotone_and_terminates ['a', 'b'] (fun l => l.getD 0 ' ')
    (fun n => List.replicate n 'a') ['a', 'b'] 0 (by decide) (by decide) (by decide)
    (fun L => List.length_replicate L 'a')
  exact ⟨⟨by decide, by decide, by decide, fun L => List.length_replicate L 'a'⟩, h.1 3, h.2⟩

